import Mathlib

/-!
Verification of the path algorithms and file-system wrappers of FileSystemLibrary
(`src/FileSystem.h`, `src/FileSystem.cpp`), POSIX build (`WIN` not defined, so
`DIR_SEP` is `"/"`).  Paths are embedded as `List Char`; the `String` wrappers at
the end of the definition section are used for concrete statements.
-/

namespace FileSystemLib

/-- Directory separator of the POSIX build: `DIR_SEP` is `"/"` (`FileSystem.h` line 56). -/
def sep : Char := '/'

/-- The `"."` path segment. -/
def dotSeg : List Char := ['.']

/-- The `".."` path segment. -/
def dotdotSeg : List Char := ['.', '.']

/-- Modelled from the spec: the segmenter `String::split` lives in the StringLibrary
dependency, which is not under `src/`.  Per spec section 4.1 it produces the ordered
list of substrings between separators, preserving empty segments.  `splitAux`
accumulates the current segment in reverse while scanning the characters. -/
def splitAux : List Char → List Char → List (List Char)
  | [], acc => [acc.reverse]
  | c :: cs, acc => if c = sep then acc.reverse :: splitAux cs [] else splitAux cs (c :: acc)

/-- Modelled from the spec: top level of `String::split` at separator `DIR_SEP`;
an empty input string yields an empty segment sequence (spec section 4.1). -/
def splitPath (s : List Char) : List (List Char) :=
  match s with
  | [] => []
  | c :: cs => splitAux (c :: cs) []

/-- `FileSystem::isAbsolutePath`, non-WIN branch (`FileSystem.h` lines 195-204):
`!path.empty() && path.front() == DIR_SEP[0]`. -/
def isAbsolutePath : List Char → Bool
  | [] => false
  | c :: _ => c == sep

/-- One step of the segment rewrite loop of `getCleanPath` (`FileSystem.cpp` lines
40-44): an empty or `"."` segment is dropped; a `".."` segment removes itself and the
most recently kept segment, or nothing when none was kept.  The source performs this
as an in-place erase over the `DataContainer` iterators; the container comes from the
StringLibrary dependency (not under `src/`), and spec sections 4.2 and 9 prescribe
reading that loop as this forward single-pass stack rewrite. -/
def segStep (acc : List (List Char)) (s : List Char) : List (List Char) :=
  if s = [] ∨ s = dotSeg then acc
  else if s = dotdotSeg then acc.tail
  else s :: acc

/-- The full segment rewrite pass of `getCleanPath` (`FileSystem.cpp` lines 40-44);
the accumulator holds the kept segments in reverse. -/
def processSegs (segs : List (List Char)) : List (List Char) :=
  (segs.foldl segStep []).reverse

/-- The re-join loop of `getCleanPath` (`FileSystem.cpp` lines 53-54):
`for (dir : dirs) path.append(DIR_SEP).append(dir)` starting from the cleared path. -/
def joinSegs (dirs : List (List Char)) : List Char :=
  dirs.foldl (fun a d => a ++ sep :: d) []

/-- `FileSystem::getCleanPath` (`FileSystem.cpp` lines 24-60), POSIX build:
non-absolute paths pass through; otherwise the path is split, the segments are
rewritten, the survivors are re-joined (bare separator when none survive), and the
recorded trailing separator is appended unconditionally (lines 56-57). -/
def getCleanPath (path : List Char) : List Char :=
  if isAbsolutePath path then
    let target_is_directory := path.getLast? = some sep
    let dirs := processSegs (splitPath path)
    let p := if dirs = [] then [sep] else joinSegs dirs
    if target_is_directory then p ++ [sep] else p
  else path

/-- String-level wrapper of `getCleanPath`. -/
def getCleanPathS (s : String) : String := ⟨getCleanPath s.data⟩


/-- The backward empty-segment removal loops of `getRelativePath`
(`FileSystem.cpp` lines 84-88): every empty segment is erased. -/
def removeEmpty (dirs : List (List Char)) : List (List Char) :=
  dirs.filter (fun d => !d.isEmpty)

/-- The inner descent loop of `getRelativePath`'s first branch (`FileSystem.cpp`
lines 111-114): starting at index `i` with `r` iterations left (`r` is
`dirs_path1.size() - i` at the call site), append `dirs_path2[i]` and a separator
each round.  The source indexes `dirs_path2` by a bound taken from `dirs_path1`, an
out-of-range access whenever `dirs_path2` is shorter; such an access is modelled
here as the empty segment. -/
def relInner (dirs2 : List (List Char)) (i : Nat) : Nat → List Char
  | 0 => []
  | r + 1 => dirs2.getD i [] ++ sep :: relInner dirs2 (i + 1) r

/-- The first branch of `getRelativePath` (`FileSystem.cpp` lines 105-117), taken
when `dirs_path1.size() >= dirs_path2.size()`: indices advance while the segments
match; at the first mismatch a single `".."` plus separator is emitted, the descent
loop runs to `dirs_path1.size()`, and the loop breaks.  `r` counts the remaining
indices, `dirs_path1.length - i` at the call site. -/
def relLoop1 (dirs1 dirs2 : List (List Char)) (i : Nat) : Nat → List Char
  | 0 => []
  | r + 1 =>
    if i < dirs2.length ∧ dirs1.getD i [] = dirs2.getD i [] then
      relLoop1 dirs1 dirs2 (i + 1) r
    else
      dotdotSeg ++ sep :: relInner dirs2 i (r + 1)

/-- The second branch of `getRelativePath` (`FileSystem.cpp` lines 118-123), taken
when `dirs_path2.size() > dirs_path1.size()`: every index of `dirs_path2` whose
segment does not match `dirs_path1` at the same position contributes its segment
plus a separator.  `r` counts the remaining indices, `dirs_path2.length - i` at the
call site. -/
def relLoop2 (dirs1 dirs2 : List (List Char)) (i : Nat) : Nat → List Char
  | 0 => []
  | r + 1 =>
    (if i < dirs1.length ∧ dirs1.getD i [] = dirs2.getD i [] then []
     else dirs2.getD i [] ++ [sep]) ++ relLoop2 dirs1 dirs2 (i + 1) r

/-- `FileSystem::getRelativePath` (`FileSystem.cpp` lines 62-128), POSIX build.
`isFileFS` abstracts `FileSystem::isFile`, the `stat`-based query of the file
system (`FileSystem.h` lines 104-112).  `back()` of an empty container in the
source (reachable only outside the absolute-path guard's domain of interest) is
modelled as the empty segment. -/
def getRelativePath (isFileFS : List Char → Bool) (path1 path2 : List Char) :
    List Char :=
  if isAbsolutePath path1 = false ∨ isAbsolutePath path2 = false then []
  else
    let path2_is_file : Bool := !(path2.getLast? == some sep)
    let dirs1a := removeEmpty (splitPath path1)
    let dirs2a := removeEmpty (splitPath path2)
    let dirs1 := if isFileFS path1 then dirs1a.dropLast else dirs1a
    let file_name := if path2_is_file then dirs2a.getLast?.getD [] else []
    let dirs2 := if path2_is_file then dirs2a.dropLast else dirs2a
    let out :=
      if dirs2.length ≤ dirs1.length then relLoop1 dirs1 dirs2 0 dirs1.length
      else relLoop2 dirs1 dirs2 0 dirs2.length
    if path2_is_file then out ++ file_name else out

/-- String-level wrapper of `getRelativePath`. -/
def getRelativePathS (isFileFS : List Char → Bool) (p1 p2 : String) : String :=
  ⟨getRelativePath isFileFS p1.data p2.data⟩

/-- A file system on which no path is a regular file. -/
def noFile : List Char → Bool := fun _ => false


/-- The scanning loop of `FileSystem::isRemoteAddress` (`FileSystem.cpp` lines
283-294): alphanumeric characters accumulate into `protocol`; at the first
non-alphanumeric character the function returns `true` exactly when the protocol
is not `"file"` and the next three characters are `"://"`, and otherwise breaks.
`string(itr, itr+3)` short of the end of the string cannot equal `"://"`, which
`List.take` models. -/
def isRemoteLoop : List Char → List Char → Bool
  | [], _ => false
  | c :: cs, protocol =>
    if c.isAlphanum then isRemoteLoop cs (protocol ++ [c])
    else decide (protocol ≠ ['f', 'i', 'l', 'e']) &&
      decide ((c :: cs).take 3 = [':', '/', '/'])

/-- `FileSystem::isRemoteAddress` (`FileSystem.cpp` lines 275-297): a leading
`"//"` is remote immediately; otherwise the scan loop decides.  The source reads
the first two characters unconditionally; a string shorter than two characters
compares unequal to `"//"` either way, which `List.take` models. -/
def isRemoteAddress (addr : List Char) : Bool :=
  if addr.take 2 = ['/', '/'] then true else isRemoteLoop addr []

/-- String-level wrapper of `isRemoteAddress`. -/
def isRemoteAddressS (s : String) : Bool := isRemoteAddress s.data


/-- The spec's remote-address contract (spec section 4.4): remote iff the string
begins with `"//"`, or its leading run of alphanumeric characters is a scheme
other than `"file"` immediately followed by `"://"`. -/
def RemoteSpec (addr : List Char) : Prop :=
  addr.take 2 = ['/', '/'] ∨
    ∃ s r, addr = s ++ [':', '/', '/'] ++ r ∧ (∀ c ∈ s, c.isAlphanum = true) ∧
      s ≠ ['f', 'i', 'l', 'e']

/-- The open modes `writeFile` is used with: `ios::trunc` and `ios::app`
(`FileSystem.h` lines 86-88). -/
inductive OpenMode where
  | trunc : OpenMode
  | append : OpenMode

/-- `FileSystem::writeFile` (`FileSystem.cpp` lines 258-273) over an abstract
store mapping paths to file contents; opening the stream is modelled as always
succeeding.  The `last_modified_time` parameter is accepted and never used, as in
the source. -/
def writeFile (store : List Char → Option (List Char)) (path content : List Char)
    (mode : OpenMode) (last_modified_time : Int) :
    Bool × (List Char → Option (List Char)) :=
  let newData := match mode with
    | OpenMode.trunc => content
    | OpenMode.append => (store path).getD [] ++ content
  (true, fun p => if p = path then some newData else store p)

/-- The `getline` loop of `readFile` (`FileSystem.cpp` lines 246-249) as a line
splitter: a line is the run of characters before a `'\n'` (which is consumed), and
a final run without a `'\n'` is still a line; reading an exhausted stream yields
nothing.  The accumulator holds the current line in reverse. -/
def fileLinesAux : List Char → List Char → List (List Char)
  | [], acc => if acc = [] then [] else [acc.reverse]
  | c :: cs, acc =>
    if c = '\n' then acc.reverse :: fileLinesAux cs [] else fileLinesAux cs (c :: acc)

/-- The lines `getline` yields on a file whose bytes are `data`. -/
def fileLines (data : List Char) : List (List Char) := fileLinesAux data []

/-- The reassembly of `readFile` (`FileSystem.cpp` lines 246-249): each line is
appended to the content followed by one `'\n'`. -/
def joinLinesNL : List (List Char) → List Char
  | [] => []
  | l :: ls => l ++ '\n' :: joinLinesNL ls

/-- `FileSystem::readFile` (`FileSystem.cpp` lines 230-256) over the abstract
store: a missing file leaves the cleared content empty and returns `false`;
otherwise the content is the line-by-line reassembly and the result is `true`. -/
def readFile (store : List Char → Option (List Char)) (path : List Char) :
    Bool × List Char :=
  match store path with
  | some d => (true, joinLinesNL (fileLines d))
  | none => (false, [])

/-- The reverse search of `getParentPath` (`FileSystem.cpp` line 323):
`find(path.rbegin(), path.rend(), DIR_SEP[0]).base()` as a position in the
original string, scanning the reversed characters with `len` the number of
characters up to and including the current one; `0` when no separator occurs. -/
def revSepBase : List Char → Nat → Nat
  | [], _ => 0
  | c :: cs, len => if c = sep then len else revSepBase cs (len - 1)

/-- `FileSystem::getParentPath` (`FileSystem.cpp` lines 314-326): a trailing
separator is removed from the local copy `parent_path`, but line 323 then
recomputes the result from the original `path`, so the copy is dead. -/
def getParentPath (path : List Char) : List Char :=
  let _parent_path :=
    if path.getLast? = some sep then path.dropLast else path
  path.take (revSepBase path.reverse path.length)

/-- String-level wrapper of `getParentPath`. -/
def getParentPathS (s : String) : String := ⟨getParentPath s.data⟩


/-- A segment that survives the rewrite pass of `getCleanPath`: nonempty, neither
`"."` nor `".."`, and (being produced by splitting at the separator) free of the
separator character. -/
def GoodSeg (d : List Char) : Prop :=
  d ≠ [] ∧ d ≠ dotSeg ∧ d ≠ dotdotSeg ∧ sep ∉ d

/-- The string `joinSegs` builds, in recursive form: one separator before each
segment. -/
def interJoin : List (List Char) → List Char
  | [] => []
  | d :: ds => sep :: d ++ interJoin ds

/-! Helper lemmas. -/

lemma joinSegs_eq_interJoin_aux (dirs : List (List Char)) : ∀ a : List Char,
    dirs.foldl (fun a d => a ++ sep :: d) a = a ++ interJoin dirs := by
  induction dirs with
  | nil => intro a; simp [interJoin]
  | cons d ds ih =>
    intro a
    rw [List.foldl_cons, ih, interJoin]
    simp

lemma joinSegs_eq_interJoin (dirs : List (List Char)) :
    joinSegs dirs = interJoin dirs := by
  rw [joinSegs, joinSegs_eq_interJoin_aux]
  simp

lemma interJoin_append (xs ys : List (List Char)) :
    interJoin (xs ++ ys) = interJoin xs ++ interJoin ys := by
  induction xs with
  | nil => simp [interJoin]
  | cons d ds ih => simp [interJoin, ih]

lemma splitAux_no_sep (s : List Char) : ∀ acc : List Char, sep ∉ s →
    splitAux s acc = [acc.reverse ++ s] := by
  induction s with
  | nil => intro acc _; simp [splitAux]
  | cons c cs ih =>
    intro acc h
    have hc : ¬ c = sep := fun he => h (he ▸ List.mem_cons_self c cs)
    rw [splitAux, if_neg hc, ih (c :: acc) (fun hm => h (List.mem_cons_of_mem _ hm))]
    simp

lemma splitAux_sep_break (s₁ : List Char) : ∀ (s₂ acc : List Char), sep ∉ s₁ →
    splitAux (s₁ ++ sep :: s₂) acc = (acc.reverse ++ s₁) :: splitAux s₂ [] := by
  induction s₁ with
  | nil =>
    intro s₂ acc _
    rw [List.nil_append, splitAux, if_pos rfl]
    simp
  | cons c cs ih =>
    intro s₂ acc h
    have hc : ¬ c = sep := fun he => h (he ▸ List.mem_cons_self c cs)
    rw [List.cons_append, splitAux, if_neg hc,
      ih s₂ (c :: acc) (fun hm => h (List.mem_cons_of_mem _ hm))]
    simp

lemma mem_splitAux_no_sep (s : List Char) : ∀ acc : List Char, sep ∉ acc →
    ∀ d ∈ splitAux s acc, sep ∉ d := by
  induction s with
  | nil =>
    intro acc hacc d hd
    rw [splitAux] at hd
    simp only [List.mem_singleton] at hd
    subst hd
    simpa using hacc
  | cons c cs ih =>
    intro acc hacc d hd
    by_cases hc : c = sep
    · rw [splitAux, if_pos hc] at hd
      rcases List.mem_cons.mp hd with h | h
      · subst h; simpa using hacc
      · exact ih [] (by simp) d h
    · rw [splitAux, if_neg hc] at hd
      refine ih (c :: acc) ?_ d hd
      intro hm
      rcases List.mem_cons.mp hm with h | h
      · exact hc h.symm
      · exact hacc h

lemma mem_splitPath_no_sep (s : List Char) : ∀ d ∈ splitPath s, sep ∉ d := by
  cases s with
  | nil => intro d hd; simp [splitPath] at hd
  | cons c cs => exact mem_splitAux_no_sep (c :: cs) [] (by simp)

lemma foldl_segStep_good (ts : List (List Char)) : ∀ acc : List (List Char),
    (∀ d ∈ acc, GoodSeg d) → (∀ d ∈ ts, sep ∉ d) →
    ∀ d ∈ ts.foldl segStep acc, GoodSeg d := by
  induction ts with
  | nil => intro acc ha _ d hd; exact ha d hd
  | cons t ts' ih =>
    intro acc ha hts d hd
    rw [List.foldl_cons] at hd
    refine ih (segStep acc t) ?_ (fun e he => hts e (List.mem_cons_of_mem _ he)) d hd
    intro e he
    unfold segStep at he
    by_cases h1 : t = [] ∨ t = dotSeg
    · rw [if_pos h1] at he; exact ha e he
    · rw [if_neg h1] at he
      by_cases h2 : t = dotdotSeg
      · rw [if_pos h2] at he; exact ha e (List.mem_of_mem_tail he)
      · rw [if_neg h2] at he
        rcases List.mem_cons.mp he with h | h
        · subst h
          exact ⟨fun h => h1 (Or.inl h), fun h => h1 (Or.inr h), h2,
            hts e (List.mem_cons_self _ _)⟩
        · exact ha e h

lemma processSegs_good (p : List Char) :
    ∀ d ∈ processSegs (splitPath p), GoodSeg d := by
  intro d hd
  rw [processSegs, List.mem_reverse] at hd
  exact foldl_segStep_good _ [] (by simp) (mem_splitPath_no_sep p) d hd

lemma splitAux_join (ds : List (List Char)) : ∀ (d acc : List Char), sep ∉ d →
    (∀ e ∈ ds, sep ∉ e) →
    splitAux (d ++ interJoin ds) acc = (acc.reverse ++ d) :: ds := by
  induction ds with
  | nil =>
    intro d acc hd _
    rw [interJoin, List.append_nil, splitAux_no_sep d acc hd]
  | cons e es ih =>
    intro d acc hd hds
    rw [interJoin, show sep :: e ++ interJoin es = sep :: (e ++ interJoin es) from rfl,
      splitAux_sep_break d _ acc hd,
      ih e [] (hds e (List.mem_cons_self _ _))
        (fun x hx => hds x (List.mem_cons_of_mem _ hx))]
    simp

lemma foldl_segStep_all_good (dirs : List (List Char)) : ∀ acc : List (List Char),
    (∀ d ∈ dirs, GoodSeg d) → dirs.foldl segStep acc = dirs.reverse ++ acc := by
  induction dirs with
  | nil => intro acc _; simp
  | cons d ds ih =>
    intro acc h
    have hg := h d (List.mem_cons_self _ _)
    have hstep : segStep acc d = d :: acc := by
      unfold segStep
      rw [if_neg (not_or.mpr ⟨hg.1, hg.2.1⟩), if_neg hg.2.2.1]
    rw [List.foldl_cons, hstep, ih (d :: acc) (fun e he => h e (List.mem_cons_of_mem _ he))]
    simp

lemma processSegs_cons_good (dirs : List (List Char))
    (h : ∀ d ∈ dirs, GoodSeg d) : processSegs ([] :: dirs) = dirs := by
  rw [processSegs, List.foldl_cons,
    show segStep [] [] = [] from by rw [segStep, if_pos (Or.inl rfl)],
    foldl_segStep_all_good dirs [] h]
  simp

lemma processSegs_cons_good_trailing (dirs : List (List Char))
    (h : ∀ d ∈ dirs, GoodSeg d) : processSegs ([] :: (dirs ++ [[]])) = dirs := by
  rw [processSegs, List.foldl_cons,
    show segStep [] [] = [] from by rw [segStep, if_pos (Or.inl rfl)],
    List.foldl_append, foldl_segStep_all_good dirs [] h, List.foldl_cons,
    List.foldl_nil, show segStep (dirs.reverse ++ []) [] = dirs.reverse ++ [] from by
      rw [segStep, if_pos (Or.inl rfl)]]
  simp

lemma interJoin_getLast?_ne_sep (dirs : List (List Char)) (hne : dirs ≠ [])
    (h : ∀ d ∈ dirs, GoodSeg d) : ¬ (interJoin dirs).getLast? = some sep := by
  obtain ⟨L, b, rfl⟩ := (List.eq_nil_or_concat dirs).resolve_left hne
  have hb : GoodSeg b := h b (by simp)
  rw [List.concat_eq_append, interJoin_append]
  simp only [interJoin, List.append_nil]
  rw [List.getLast?_append_cons]
  obtain ⟨b0, b', rfl⟩ : ∃ b0 b', b = b0 :: b' := by
    cases b with
    | nil => exact absurd rfl hb.1
    | cons b0 b' => exact ⟨b0, b', rfl⟩
  rw [List.getLast?_cons_cons]
  intro hcon
  have hbne : b0 :: b' ≠ [] := List.cons_ne_nil _ _
  rw [List.getLast?_eq_getLast _ hbne] at hcon
  have hmem : sep ∈ b0 :: b' := Option.some.inj hcon ▸ List.getLast_mem hbne
  exact hb.2.2.2 hmem

lemma getCleanPath_spec (p : List Char) (h1 : isAbsolutePath p = true) :
    getCleanPath p =
      (if processSegs (splitPath p) = [] then [sep]
       else joinSegs (processSegs (splitPath p))) ++
        (if p.getLast? = some sep then [sep] else []) := by
  simp only [getCleanPath, h1, if_true]
  by_cases ht : p.getLast? = some sep <;>
    by_cases hd : processSegs (splitPath p) = [] <;> simp [ht, hd]

lemma cleanPath_fixed_of_good (dirs : List (List Char)) (hne : dirs ≠ [])
    (hg : ∀ d ∈ dirs, GoodSeg d) : ∀ tl : List Char, tl = [] ∨ tl = [sep] →
    getCleanPath (joinSegs dirs ++ tl) = joinSegs dirs ++ tl := by
  obtain ⟨d, ds, rfl⟩ : ∃ d ds, dirs = d :: ds := by
    cases dirs with
    | nil => exact absurd rfl hne
    | cons d ds => exact ⟨d, ds, rfl⟩
  intro tl htl
  have hnosep_d : sep ∉ d := (hg d (List.mem_cons_self _ _)).2.2.2
  have hnosep_ds : ∀ e ∈ ds, sep ∉ e :=
    fun e he => (hg e (List.mem_cons_of_mem _ he)).2.2.2
  have hjq : joinSegs (d :: ds) = sep :: (d ++ interJoin ds) := by
    rw [joinSegs_eq_interJoin, interJoin, List.cons_append]
  rcases htl with rfl | rfl
  · rw [List.append_nil, hjq]
    have habs : isAbsolutePath (sep :: (d ++ interJoin ds)) = true := by
      simp [isAbsolutePath]
    have hsplit : splitPath (sep :: (d ++ interJoin ds)) = [] :: d :: ds := by
      show splitAux (sep :: (d ++ interJoin ds)) [] = [] :: d :: ds
      rw [splitAux, if_pos rfl, splitAux_join ds d [] hnosep_d hnosep_ds]
      simp
    have hproc : processSegs (splitPath (sep :: (d ++ interJoin ds))) = d :: ds := by
      rw [hsplit]
      exact processSegs_cons_good _ hg
    have hlast : ¬ (sep :: (d ++ interJoin ds)).getLast? = some sep := by
      have h := interJoin_getLast?_ne_sep (d :: ds) (List.cons_ne_nil _ _) hg
      rw [interJoin] at h
      exact h
    rw [getCleanPath_spec _ habs, hproc, if_neg (List.cons_ne_nil _ _),
      if_neg hlast, List.append_nil, hjq]
  · have hq : (sep :: (d ++ interJoin ds)) ++ [sep] =
        sep :: (d ++ interJoin (ds ++ [[]])) := by
      rw [interJoin_append]
      simp [interJoin]
    rw [hjq, hq]
    have habs : isAbsolutePath (sep :: (d ++ interJoin (ds ++ [[]]))) = true := by
      simp [isAbsolutePath]
    have hsplit : splitPath (sep :: (d ++ interJoin (ds ++ [[]]))) =
        [] :: d :: (ds ++ [[]]) := by
      show splitAux (sep :: (d ++ interJoin (ds ++ [[]]))) [] = [] :: d :: (ds ++ [[]])
      rw [splitAux, if_pos rfl, splitAux_join (ds ++ [[]]) d [] hnosep_d ?hnl]
      · simp
      case hnl =>
        intro e he
        rcases List.mem_append.mp he with h | h
        · exact hnosep_ds e h
        · simp only [List.mem_singleton] at h
          subst h
          simp
    have hproc : processSegs (splitPath (sep :: (d ++ interJoin (ds ++ [[]])))) =
        d :: ds := by
      rw [hsplit, show ([] : List Char) :: d :: (ds ++ [[]]) =
        [] :: ((d :: ds) ++ [[]]) from rfl]
      exact processSegs_cons_good_trailing _ hg
    have hlast : (sep :: (d ++ interJoin (ds ++ [[]]))).getLast? = some sep := by
      rw [← hq, List.getLast?_append_cons]
      rfl
    rw [getCleanPath_spec _ habs, hproc, if_neg (List.cons_ne_nil _ _),
      if_pos hlast, hjq, hq]

lemma tail_reverse_eq (l : List (List Char)) : l.tail.reverse = l.reverse.dropLast := by
  cases l with
  | nil => rfl
  | cons a as => simp [List.dropLast_concat]

lemma joinLinesNL_fileLinesAux (s : List Char) : ∀ acc : List Char,
    joinLinesNL (fileLinesAux s acc) =
      if acc = [] ∧ s = [] then []
      else acc.reverse ++ s ++ (if s.getLast? = some '\n' then [] else ['\n']) := by
  induction s with
  | nil =>
    intro acc
    by_cases h : acc = [] <;> simp [fileLinesAux, joinLinesNL, h]
  | cons c cs ih =>
    intro acc
    by_cases hc : c = '\n'
    · subst hc
      rw [fileLinesAux, if_pos rfl, joinLinesNL, ih []]
      cases cs with
      | nil => simp [joinLinesNL]
      | cons d ds => simp [List.getLast?_cons_cons, List.append_assoc]
    · rw [fileLinesAux, if_neg hc, ih (c :: acc)]
      have hne : ¬(c :: acc = [] ∧ cs = []) := by simp
      rw [if_neg hne]
      cases cs with
      | nil => simp [hc]
      | cons d ds => simp [List.getLast?_cons_cons, List.append_assoc]

lemma take_three_eq_iff (l : List Char) (a b c : Char) :
    l.take 3 = [a, b, c] ↔ ∃ r, l = a :: b :: c :: r := by
  cases l with
  | nil => simp
  | cons x xs =>
    cases xs with
    | nil => simp
    | cons y ys =>
      cases ys with
      | nil => simp
      | cons z zs =>
        simp only [List.take_succ_cons, List.take_zero, List.cons.injEq,
          and_true]
        constructor
        · rintro ⟨rfl, rfl, rfl⟩
          exact ⟨zs, rfl, rfl, rfl, rfl⟩
        · rintro ⟨r, rfl, rfl, rfl, rfl⟩
          exact ⟨rfl, rfl, rfl⟩

lemma isRemoteLoop_iff (l : List Char) : ∀ proto : List Char,
    isRemoteLoop l proto = true ↔
      ∃ s r, l = s ++ [':', '/', '/'] ++ r ∧ (∀ c ∈ s, c.isAlphanum = true) ∧
        proto ++ s ≠ ['f', 'i', 'l', 'e'] := by
  induction l with
  | nil =>
    intro proto
    rw [isRemoteLoop]
    simp
  | cons c cs ih =>
    intro proto
    rw [isRemoteLoop]
    by_cases hc : c.isAlphanum = true
    · rw [if_pos hc, ih (proto ++ [c])]
      constructor
      · rintro ⟨s, r, hcs, hal, hne⟩
        refine ⟨c :: s, r, by simp [hcs], ?_, ?_⟩
        · intro x hx
          rcases List.mem_cons.mp hx with h | h
          · exact h ▸ hc
          · exact hal x h
        · simpa [List.append_assoc] using hne
      · rintro ⟨s, r, heq, hal, hne⟩
        cases s with
        | nil =>
          exfalso
          simp only [List.nil_append, List.cons_append, List.cons.injEq] at heq
          rw [heq.1] at hc
          simp at hc
        | cons a s' =>
          simp only [List.cons_append, List.cons.injEq, List.append_assoc] at heq
          obtain ⟨rfl, hcs⟩ := heq
          refine ⟨s', r, by simpa [List.append_assoc] using hcs,
            fun x hx => hal x (List.mem_cons_of_mem _ hx), ?_⟩
          simpa [List.append_assoc] using hne
    · rw [if_neg hc]
      simp only [Bool.and_eq_true, decide_eq_true_eq]
      constructor
      · rintro ⟨hne, htake⟩
        obtain ⟨r, hr⟩ := (take_three_eq_iff _ _ _ _).mp htake
        exact ⟨[], r, by simpa using hr, by simp, by simpa using hne⟩
      · rintro ⟨s, r, heq, hal, hne⟩
        have hs : s = [] := by
          cases s with
          | nil => rfl
          | cons a s' =>
            exfalso
            simp only [List.cons_append, List.cons.injEq, List.append_assoc] at heq
            exact hc (heq.1 ▸ hal a (by simp))
        subst hs
        simp only [List.nil_append, List.append_nil] at heq hne
        exact ⟨hne, (take_three_eq_iff _ _ _ _).mpr ⟨r, heq⟩⟩

/-! Theorems for the claims. -/

/-- C7: `isRemoteAddress` returns `true` exactly when the address begins with
`"//"` or its leading run of alphanumeric characters forms a scheme other than
`"file"` immediately followed by `"://"`; any other non-alphanumeric character
before `"://"` ends the scan with `false`.  The concrete examples of the claim are
confirmed as well. -/
theorem isRemoteAddress_characterization :
    (∀ addr : List Char, isRemoteAddress addr = true ↔ RemoteSpec addr) ∧
    isRemoteAddressS "http://x" = true ∧ isRemoteAddressS "file://x" = false ∧
    isRemoteAddressS "/local/path" = false := by
  refine ⟨fun addr => ?_, by decide, by decide, by decide⟩
  unfold isRemoteAddress RemoteSpec
  by_cases h2 : addr.take 2 = ['/', '/']
  · simp [h2]
  · rw [if_neg h2, isRemoteLoop_iff]
    simp only [h2, false_or, List.nil_append]

/-- C2: a `".."` segment removes itself and the immediately preceding remaining
segment, and with no preceding remaining segment it is simply dropped (`dropLast`
of the empty list); consequently excess `".."` is absorbed at the root without
error, `getCleanPath "/../../a" = "/a"` and `getCleanPath "/a/../../b" = "/b"`. -/
theorem dotdot_pops_previous_segment :
    (∀ ts : List (List Char),
      processSegs (ts ++ [dotdotSeg]) = (processSegs ts).dropLast) ∧
    getCleanPathS "/../../a" = "/a" ∧ getCleanPathS "/a/../../b" = "/b" := by
  refine ⟨fun ts => ?_, by decide, by decide⟩
  unfold processSegs
  rw [List.foldl_append, List.foldl_cons, List.foldl_nil]
  have h : segStep (List.foldl segStep [] ts) dotdotSeg =
      (List.foldl segStep [] ts).tail := by
    simp [segStep, dotdotSeg, dotSeg]
  rw [h, tail_reverse_eq]

/-- C3 counterexample: on input `"/"` every segment is removed, yet the recorded
trailing separator is appended unconditionally, so the result is `"//"`, not the
bare root `"/"` the claim states. -/
theorem cleanPath_root_counterexample :
    getCleanPathS "/" = "//" ∧ getCleanPathS "/" ≠ "/" := by decide

/-- C3 amended: when every segment of an absolute path is removed during
normalization, `getCleanPath` produces the bare root and then appends the recorded
trailing separator unconditionally — `"//"` for directory-shaped inputs, `"/"`
otherwise. -/
theorem cleanPath_no_surviving_segments (p : List Char)
    (h1 : isAbsolutePath p = true) (h2 : processSegs (splitPath p) = []) :
    getCleanPath p = if p.getLast? = some sep then [sep, sep] else [sep] := by
  by_cases ht : p.getLast? = some sep <;> simp [getCleanPath, h1, h2, ht]

/-- C3 amended, witness at the input `"/"`. -/
theorem cleanPath_no_surviving_segments_witness :
    isAbsolutePath "/".data = true ∧ processSegs (splitPath "/".data) = [] ∧
    getCleanPath "/".data = [sep, sep] :=
  ⟨by decide, by decide,
    (cleanPath_no_surviving_segments "/".data (by decide) (by decide)).trans
      (by decide)⟩

/-- C4 counterexample: `getCleanPath` is not idempotent on all absolute paths.
`getCleanPath "/a/.."` is `"/"` (no trailing separator was recorded), and cleaning
`"/"` again yields `"//"`. -/
theorem cleanPath_not_idempotent_at_bare_root :
    getCleanPathS (getCleanPathS "/a/..") ≠ getCleanPathS "/a/.." := by decide

/-- C4 amended: `getCleanPath` is idempotent on every absolute path whose cleaned
form is not the bare root `"/"` — the sole exceptions are paths that clean to `"/"`
without a recorded trailing separator, which a second pass turns into `"//"`. -/
theorem cleanPath_idempotent_off_bare_root (p : List Char)
    (h1 : isAbsolutePath p = true) (h2 : getCleanPath p ≠ [sep]) :
    getCleanPath (getCleanPath p) = getCleanPath p := by
  by_cases hd : processSegs (splitPath p) = []
  · by_cases ht : p.getLast? = some sep
    · have hq : getCleanPath p = [sep, sep] := by
        rw [getCleanPath_spec p h1, hd]
        simp [ht]
      rw [hq]
      decide
    · exfalso
      apply h2
      rw [getCleanPath_spec p h1, hd]
      simp [ht]
  · obtain ⟨d, ds, hde⟩ : ∃ d ds, processSegs (splitPath p) = d :: ds := by
      cases hpd : processSegs (splitPath p) with
      | nil => exact absurd hpd hd
      | cons a as => exact ⟨a, as, rfl⟩
    have hg : ∀ e ∈ (d :: ds), GoodSeg e := by
      rw [← hde]
      exact fun e he => processSegs_good p e he
    have hq : getCleanPath p =
        joinSegs (d :: ds) ++ (if p.getLast? = some sep then [sep] else []) := by
      rw [getCleanPath_spec p h1, hde, if_neg (List.cons_ne_nil _ _)]
    rw [hq]
    exact cleanPath_fixed_of_good (d :: ds) (List.cons_ne_nil _ _) hg _
      (by by_cases ht : p.getLast? = some sep <;> simp [ht])

/-- C4 amended, witness at the input `"/a/b"`. -/
theorem cleanPath_idempotent_off_bare_root_witness :
    isAbsolutePath "/a/b".data = true ∧ getCleanPath "/a/b".data ≠ [sep] ∧
    getCleanPath (getCleanPath "/a/b".data) = getCleanPath "/a/b".data :=
  ⟨by decide, by decide,
    cleanPath_idempotent_off_bare_root "/a/b".data (by decide) (by decide)⟩

/-- C5: a path that is not absolute is returned unchanged by `getCleanPath`. -/
theorem cleanPath_nonabsolute_passthrough (p : List Char)
    (h : isAbsolutePath p = false) : getCleanPath p = p := by
  simp [getCleanPath, h]

/-- C5 witness at the input `"rel"`. -/
theorem cleanPath_nonabsolute_passthrough_witness :
    isAbsolutePath "rel".data = false ∧ getCleanPath "rel".data = "rel".data :=
  ⟨by decide, cleanPath_nonabsolute_passthrough _ (by decide)⟩

/-- C6: when either input is not absolute, `getRelativePath` returns the empty
string sentinel. -/
theorem relativePath_nonabsolute_sentinel (fs : List Char → Bool)
    (p1 p2 : List Char)
    (h : isAbsolutePath p1 = false ∨ isAbsolutePath p2 = false) :
    getRelativePath fs p1 p2 = [] := by
  rw [getRelativePath, if_pos h]

/-- C6 witness at the inputs `"rel"` and `"/abs"`. -/
theorem relativePath_nonabsolute_sentinel_witness :
    (isAbsolutePath "rel".data = false ∨ isAbsolutePath "/abs".data = false) ∧
    getRelativePath noFile "rel".data "/abs".data = [] :=
  ⟨Or.inl (by decide),
    relativePath_nonabsolute_sentinel noFile _ _ (Or.inl (by decide))⟩

/-- C1, evaluation at a failing input: from `"/a/b/"` to `"/x/y/"` (no existing
regular files, all container accesses in bounds) the code emits a single `"../"`
before the descent, yielding `"../x/y/"`, whereas the claim prescribes one `".."`
per remaining `from` segment, `"../../x/y/"`. -/
theorem relativePath_single_climb_divergence :
    getRelativePathS noFile "/a/b/" "/x/y/" = "../x/y/" ∧
    getRelativePathS noFile "/a/b/" "/x/y/" ≠ "../../x/y/" := by decide

/-- C8: writing content with `writeFile` (truncating mode, any value of the unused
`last_modified_time`) and reading it back with `readFile` succeeds and reproduces
the content line by line with a `'\n'` appended after every line, i.e. the content
itself with a trailing `'\n'` appended when the nonempty content lacked one. -/
theorem readFile_writeFile_roundtrip (store : List Char → Option (List Char))
    (path content : List Char) (t : Int) :
    readFile (writeFile store path content OpenMode.trunc t).2 path =
      (true,
        if content = [] then []
        else content ++ (if content.getLast? = some '\n' then [] else ['\n'])) := by
  have hsome : (writeFile store path content OpenMode.trunc t).2 path = some content := by
    show (if path = path then some content else store path) = some content
    exact if_pos rfl
  unfold readFile
  rw [hsome]
  show (true, joinLinesNL (fileLinesAux content [])) = _
  rw [joinLinesNL_fileLinesAux]
  by_cases h : content = [] <;> simp [h]

/-- C9: for a nonempty path ending in the separator, `getParentPath` returns the
input unchanged: the trailing separator is removed only from the dead local copy,
and the reverse search on the original finds that trailing separator. -/
theorem parentPath_trailing_sep_identity (p : List Char) (h0 : p ≠ [])
    (h : p.getLast? = some sep) : getParentPath p = p := by
  have hlast : p.getLast h0 = sep := by
    rw [List.getLast?_eq_getLast p h0] at h
    exact Option.some.inj h
  have hp : p.dropLast ++ [sep] = p := by
    conv_rhs => rw [← List.dropLast_append_getLast h0]
    rw [hlast]
  have hrev : p.reverse = sep :: p.dropLast.reverse := by
    conv_lhs => rw [← hp]
    simp
  show p.take (revSepBase p.reverse p.length) = p
  rw [hrev, revSepBase, if_pos rfl, List.take_length]

/-- C9 witness at the input `"/a/b/"`. -/
theorem parentPath_trailing_sep_identity_witness :
    "/a/b/".data ≠ [] ∧ "/a/b/".data.getLast? = some sep ∧
    getParentPath "/a/b/".data = "/a/b/".data :=
  ⟨by decide, by decide,
    parentPath_trailing_sep_identity "/a/b/".data (by decide) (by decide)⟩

/-- C10: `writeFile` behaves identically for any two values of its
`last_modified_time` parameter — the parameter is never used. -/
theorem writeFile_ignores_last_modified_time
    (store : List Char → Option (List Char)) (path content : List Char)
    (mode : OpenMode) (t1 t2 : Int) :
    writeFile store path content mode t1 = writeFile store path content mode t2 :=
  rfl

end FileSystemLib
